import Mathlib

/-!
Shallow embedding of the terraform-operator-plugin-manager admission sidecar.

The embedding covers the two subsystems the specification describes:

* the mutation engine of `internal/webserver` (the directory-of-policy-files
  variant: `mergeTaskOptions`, `doSkip`, `updatePlugins`,
  `findTaskOptionIndex`, the `mutate` loop and the `/status` patch
  post-filter), and
* the certificate lifecycle manager of `main.go` (`isCertValid`, the
  `certMgmt` polling loop, `createOrUpdateMutatingWebhookConfiguration`).

Go maps are modelled as association lists with unique keys; a Go map
*iteration* has no specified order, so every loop of the form
`for k, v := range m` whose visit order is observable is parameterised by
the order in which the entries are visited, constrained to be a
permutation of the map's entries.  Writing into a nil Go map panics; nil
maps are modelled as `none` and the panic as `Except.error`.
-/

namespace TfPluginManager

/-- A `corev1.EnvVar`: name and value. -/
structure EnvVar where
  name : String
  value : String
deriving DecidableEq, Repr

/-- A `corev1.EnvFromSource`.  The Go code keys a map by the whole struct
value; the struct is opaque to this development, so it is modelled as a
single comparable field. -/
structure EnvFromSource where
  ref : String
deriving DecidableEq, Repr

/-- A `tfv1alpha2.TaskOption`.  Go nil maps for `Labels` and `Annotations`
are `none`; an allocated empty map is `some []`. -/
structure TaskOption where
  forNames : List String
  env : List EnvVar
  envFrom : List EnvFromSource
  labels : Option (List (String × String))
  annotations : Option (List (String × String))
  restartPolicy : String
  resources : String
  script : String
deriving DecidableEq, Repr

/-- Default used for (always in-bounds) list indexing, mirroring Go's
indexing of a slice. -/
def envDflt : EnvVar := ⟨"", ""⟩

def envFromDflt : EnvFromSource := ⟨""⟩

def defaultTaskOption : TaskOption :=
  ⟨[], [], [], none, none, "", "", ""⟩

/-- Boolean membership by decidable equality. -/
def memB {κ : Type} [DecidableEq κ] (k : κ) : List κ → Bool
  | [] => false
  | k' :: rest => if k' = k then true else memB k rest

/-- First element whose key matches, mirroring a lookup in a Go map whose
keys are unique. -/
def findByKey {α κ : Type} [DecidableEq κ] (key : α → κ) (k : κ) : List α → Option α
  | [] => none
  | a :: rest => if key a = k then some a else findByKey key k rest

/-- Go `m[k] = v`: overwrite the entry if the key is present, otherwise add
it. -/
def mapInsert {κ : Type} [DecidableEq κ] (m : List (κ × Nat)) (k : κ) (v : Nat) :
    List (κ × Nat) :=
  if m.any (fun p => p.1 = k) then
    m.map (fun p => if p.1 = k then (k, v) else p)
  else
    m ++ [(k, v)]

/-- Go `m[k]` (with the `, ok` form): the entry for `k`, if present. -/
def mapLookup {κ : Type} [DecidableEq κ] : List (κ × Nat) → κ → Option Nat
  | [], _ => none
  | p :: rest, k => if p.1 = k then some p.2 else mapLookup rest k

/-- Go `delete(m, k)`: drop the entries carrying key `k`. -/
def mapDelete {κ : Type} [DecidableEq κ] : List (κ × Nat) → κ → List (κ × Nat)
  | [], _ => []
  | p :: rest, k => if p.1 = k then mapDelete rest k else p :: mapDelete rest k

/-- `for i, x := range xs { m[key(x)] = i }`, the index-map construction at
the top of `mergeTaskOptions`, with `i` starting at `start`. -/
def buildIndexMapFrom {α κ : Type} [DecidableEq κ] (key : α → κ) (start : Nat) :
    List α → List (κ × Nat) → List (κ × Nat)
  | [], m => m
  | a :: rest, m => buildIndexMapFrom key (start + 1) rest (mapInsert m (key a) start)

def buildIndexMap {α κ : Type} [DecidableEq κ] (key : α → κ) (xs : List α) :
    List (κ × Nat) :=
  buildIndexMapFrom key 0 xs []

/-- The replace-in-place loop of `mergeTaskOptions`: walk the old list; an
element whose key is in the index map is replaced by the new list's entry at
the mapped index, and its key is deleted from the map.  Returns the walked
list and the remaining map. -/
def replacePhase {α κ : Type} [DecidableEq κ] (key : α → κ) (newList : List α) (d : α) :
    List α → List (κ × Nat) → List α × List (κ × Nat)
  | [], m => ([], m)
  | a :: rest, m =>
    match mapLookup m (key a) with
    | none =>
      let r := replacePhase key newList d rest m
      (a :: r.1, r.2)
    | some i =>
      let r := replacePhase key newList d rest (mapDelete m (key a))
      (newList.getD i d :: r.1, r.2)

/-- The map entries still to be appended after the replace-in-place loop of
`mergeTaskOptions` has run over `old`'s env list. -/
def envRemainder (old new : TaskOption) : List (String × Nat) :=
  (replacePhase EnvVar.name new.env envDflt old.env (buildIndexMap EnvVar.name new.env)).2

/-- Same as `envRemainder` for the `EnvFrom` lists (keyed by the source
value itself). -/
def envFromRemainder (old new : TaskOption) : List (EnvFromSource × Nat) :=
  (replacePhase id new.envFrom envFromDflt old.envFrom (buildIndexMap id new.envFrom)).2

/-- Go `for k, v := range new { old[k] = v }` on a label/annotation map.
Assigning into a nil map (`none`) panics, modelled as `Except.error`; the
loop body never runs when `new` is nil or empty. -/
def mergeLabelMap (old new : Option (List (String × String))) :
    Except Unit (Option (List (String × String))) :=
  match new with
  | none => .ok old
  | some [] => .ok old
  | some entries =>
    match old with
    | none => .error ()
    | some m =>
      .ok (some (entries.foldl
        (fun acc p =>
          if acc.any (fun q => q.1 = p.1) then
            acc.map (fun q => if q.1 = p.1 then (p.1, p.2) else q)
          else
            acc ++ [(p.1, p.2)]) m))

/-- `mergeTaskOptions` of `internal/webserver`.  `σ` and `τ` are the orders
in which Go's `for _, i := range envIndexMap` (resp. `envFromIndexMap`)
visits the remaining map entries; a run of the Go program corresponds to
some `σ` that is a permutation of `envRemainder old new` (and likewise
`τ`). -/
def mergeTaskOptionsWith (old new : TaskOption) (σ : List (String × Nat))
    (τ : List (EnvFromSource × Nat)) : Except Unit TaskOption :=
  let re := replacePhase EnvVar.name new.env envDflt old.env
    (buildIndexMap EnvVar.name new.env)
  let env' := re.1 ++ σ.map (fun p => new.env.getD p.2 envDflt)
  let rf := replacePhase id new.envFrom envFromDflt old.envFrom
    (buildIndexMap id new.envFrom)
  let envFrom' := rf.1 ++ τ.map (fun p => new.envFrom.getD p.2 envFromDflt)
  match mergeLabelMap old.labels new.labels with
  | .error e => .error e
  | .ok labels' =>
    match mergeLabelMap old.annotations new.annotations with
    | .error e => .error e
    | .ok annotations' =>
      .ok { forNames := old.forNames
            env := env'
            envFrom := envFrom'
            labels := labels'
            annotations := annotations'
            restartPolicy := new.restartPolicy
            resources := new.resources
            script := new.script }

/-- The merge law exactly as the specification words it: for every
admissible visit order, the merged env list is old's entries with
names-in-both replaced in place by new's value, followed by the
names-only-in-new *in new's original relative order*. -/
def C1Statement (old new : TaskOption) : Prop :=
  ∀ (σ : List (String × Nat)) (τ : List (EnvFromSource × Nat)) (merged : TaskOption),
    σ.Perm (envRemainder old new) →
    τ.Perm (envFromRemainder old new) →
    mergeTaskOptionsWith old new σ τ = .ok merged →
    merged.env =
      old.env.map (fun e => (findByKey EnvVar.name e.name new.env).getD e)
        ++ new.env.filter (fun n => !(memB n.name (old.env.map EnvVar.name)))

/-- Character-list prefix test, used to model Go's byte-level
`strings.HasPrefix` on (well-formed) strings. -/
def listIsPrefixOf : List Char → List Char → Bool
  | [], _ => true
  | _ :: _, [] => false
  | a :: as, b :: bs => if a = b then listIsPrefixOf as bs else false

/-- Go `strings.HasPrefix(s, pre)`. -/
def strHasPrefix (pre s : String) : Bool := listIsPrefixOf pre.data s.data

/-- Go `strings.HasSuffix(s, suf)`. -/
def strHasSuffix (suf s : String) : Bool :=
  listIsPrefixOf suf.data.reverse s.data.reverse

/-- Go `strings.TrimSuffix(s, suf)`. -/
def strTrimSuffix (s suf : String) : String :=
  if strHasSuffix suf s then ⟨s.data.take (s.data.length - suf.data.length)⟩ else s

/-- A `tfv1alpha2.Plugin` (`ImageConfig` plus fixed `Task`/`When` fields);
opaque to the claims, carried as a comparable value. -/
structure Plugin where
  image : String
  imagePullPolicy : String
deriving DecidableEq, Repr

/-- The decoded custom resource: metadata annotations, the plugin map and
the task-option list.  Go nil maps/slices are `none`. -/
structure Terraform where
  annotations : Option (List (String × String))
  plugins : Option (List (String × Plugin))
  taskOptions : Option (List TaskOption)
deriving DecidableEq, Repr

/-- One policy file's parsed content (`pluginOption` in the source); the
source spells the first JSON-tagged field `SkipAnnotaiton`. -/
structure PluginOption where
  skipKey : String
  pluginConfig : Plugin
  taskOption : TaskOption
deriving DecidableEq, Repr

/-- One entry of the policy directory as `ioutil.ReadDir` reports it.
`content` is the result of reading and JSON-parsing the file
(`newPluginOption`); `none` means the read or the parse failed. -/
structure DirEntry where
  name : String
  isDir : Bool
  content : Option PluginOption
deriving DecidableEq, Repr

/-- `doSkip`: allocate the annotations map when nil, then report whether the
skip key is present (the value is never inspected).  Returns the (possibly
normalised) resource and the verdict. -/
def doSkip (tf : Terraform) (skipKey : String) : Terraform × Bool :=
  match tf.annotations with
  | none => ({ tf with annotations := some [] }, false)
  | some m => (tf, m.any (fun p => p.1 = skipKey))

/-- `updatePlugins`: allocate the plugin map when nil; if the plugin name is
already a key, return `true` *without* writing (this variant returns before
the assignment); otherwise insert the plugin and return `false`. -/
def updatePlugins (tf : Terraform) (pluginName : String) (p : Plugin) :
    Terraform × Bool :=
  let ps := tf.plugins.getD []
  if ps.any (fun q => q.1 = pluginName) then
    ({ tf with plugins := some ps }, true)
  else
    ({ tf with plugins := some (ps ++ [(pluginName, p)]) }, false)

/-- `findTaskOptionIndex`: the first index whose `for` list is exactly
`[pluginName]`. -/
def findTaskOptionIndex (tos : List TaskOption) (pluginName : String) : Option Nat :=
  tos.findIdx? (fun t => t.forNames = [pluginName])

/-- The tail of the per-policy loop body: force `for = [pluginName]` and
default an unset restart policy to `Always`. -/
def setForAndRestart (t : TaskOption) (pluginName : String) : TaskOption :=
  let t' := { t with forNames := [pluginName] }
  if t'.restartPolicy = "" then { t' with restartPolicy := "Always" } else t'

/-- The visit orders chosen for one policy application: one for the env
remainder map, one for the env-from remainder map. -/
def ChoicePair : Type := List (String × Nat) × List (EnvFromSource × Nat)

/-- Apply one parsed, un-skipped policy to the resource: upsert the plugin,
merge or append its task-option template, then fix `for` and the restart
policy.  An `Except.error` is the nil-map panic escaping from
`mergeTaskOptions`. -/
def applyPolicy (tf : Terraform) (pluginName : String) (opt : PluginOption)
    (c : ChoicePair) : Except Unit Terraform :=
  let tf₁ := (updatePlugins tf pluginName opt.pluginConfig).1
  let tos := tf₁.taskOptions.getD []
  match findTaskOptionIndex tos pluginName with
  | some i =>
    match mergeTaskOptionsWith (tos.getD i defaultTaskOption) opt.taskOption c.1 c.2 with
    | .error e => .error e
    | .ok merged =>
      let tos' := tos.set i merged
      let tos'' := tos'.set i (setForAndRestart (tos'.getD i defaultTaskOption) pluginName)
      .ok { tf₁ with taskOptions := some tos'' }
  | none =>
    let tos' := tos ++ [opt.taskOption]
    let i := tos'.length - 1
    let tos'' := tos'.set i (setForAndRestart (tos'.getD i defaultTaskOption) pluginName)
    .ok { tf₁ with taskOptions := some tos'' }

/-- Outcome of processing one directory entry inside the `mutate` loop. -/
inductive StepResult where
  | next (tf : Terraform)
  | abort
  | panicked
deriving DecidableEq, Repr

/-- One iteration of the `mutate` loop of the directory-based engine:
directories and non-`.json` names are skipped; a read/parse failure aborts
the whole request with the empty patch; the policy's skip key skips just
this policy; otherwise the policy is applied (which can panic on a nil
label/annotation map). -/
def stepFile (tf : Terraform) (f : DirEntry) (c : ChoicePair) : StepResult :=
  if f.isDir then .next tf
  else if !(strHasSuffix ".json" f.name) then .next tf
  else
    match f.content with
    | none => .abort
    | some opt =>
      let pluginName := strTrimSuffix f.name ".json"
      let skipRes := doSkip tf opt.skipKey
      if skipRes.2 then .next skipRes.1
      else
        match applyPolicy skipRes.1 pluginName opt c with
        | .error _ => .panicked
        | .ok tf' => .next tf'

/-- Result of the whole policy loop. -/
inductive LoopResult where
  | ok (tf : Terraform)
  | abortNilPatch
  | panic
deriving DecidableEq, Repr

/-- The policy loop of `mutate`, over directory entries paired with the
visit-order choices for their (potential) merges. -/
def mutateLoop (tf : Terraform) : List (DirEntry × ChoicePair) → LoopResult
  | [] => .ok tf
  | (f, c) :: rest =>
    match stepFile tf f c with
    | .next tf' => mutateLoop tf' rest
    | .abort => .abortNilPatch
    | .panicked => .panic

/-- A JSON-Patch operation as `jsonpatch.JsonPatchOperation`; the value is
opaque. -/
structure PatchOp where
  op : String
  path : String
  value : String
deriving DecidableEq, Repr

/-- The webhook's `AdmissionResponse`: the `Allowed` flag, the patch (with
`patchType = JSONPatch`) if any, and the `Result.Message` if any. -/
structure AdmissionResponse where
  allowed : Bool
  patch : Option (List PatchOp)
  message : Option String
deriving DecidableEq, Repr

/-- `nilPatch()`: approve with an explicit empty patch array. -/
def nilPatch : AdmissionResponse := ⟨true, some [], none⟩

/-- What the `/mutate` handler does with one admission request: either a
response, or the handler goroutine dies in a panic. -/
inductive MutateOutcome where
  | response (r : AdmissionResponse)
  | panic
deriving DecidableEq, Repr

/-- The `/status` post-filter applied to the computed patch. -/
def filterStatusOps (patch : List PatchOp) : List PatchOp :=
  patch.filter (fun p => !(strHasPrefix "/status" p.path))

/-- `mutate` of the directory-based engine.  The deserializer and
`jsonpatch.CreatePatch` are external collaborators: the decode outcome of
the embedded raw object arrives as `decodeRes`, and `createPatch` maps the
mutated resource to the structural diff against the raw object (its
`Except.error` also covers the marshal failure, which takes the same
response branch). -/
def mutate (resourceMatches : Bool) (decodeRes : Except String Terraform)
    (files : List (DirEntry × ChoicePair))
    (createPatch : Terraform → Except String (List PatchOp)) : MutateOutcome :=
  match resourceMatches with
  | false => .response nilPatch
  | true =>
    match decodeRes with
    | .error msg => .response ⟨false, none, some msg⟩
    | .ok tf =>
      match mutateLoop tf files with
      | .abortNilPatch => .response nilPatch
      | .panic => .panic
      | .ok tf' =>
        match createPatch tf' with
        | .error msg => .response ⟨false, none, some msg⟩
        | .ok patch =>
          let realPatch := filterStatusOps patch
          if realPatch = [] then .response nilPatch
          else .response ⟨true, some realPatch, none⟩

/-- `ls`, i.e. `ioutil.ReadDir`: the directory's entries sorted by file
name (`ioutil.ReadDir` documents that it sorts by filename). -/
def ls (entries : List DirEntry) : List DirEntry :=
  entries.insertionSort (fun a b => a.name ≤ b.name)

instance : IsTotal DirEntry (fun a b => a.name ≤ b.name) :=
  ⟨fun a b => le_total a.name b.name⟩

instance : IsTrans DirEntry (fun a b => a.name ≤ b.name) :=
  ⟨fun _ _ _ h h' => le_trans h h'⟩

/-- Whether the visit orders carried along a run are admissible: wherever
the run performs a merge, the chosen orders must be permutations of the
remaining map entries at that point. -/
def stepAdmissible (tf : Terraform) (f : DirEntry) (c : ChoicePair) : Bool :=
  if f.isDir then true
  else if !(strHasSuffix ".json" f.name) then true
  else
    match f.content with
    | none => true
    | some opt =>
      let pluginName := strTrimSuffix f.name ".json"
      let skipRes := doSkip tf opt.skipKey
      if skipRes.2 then true
      else
        let tf₁ := (updatePlugins skipRes.1 pluginName opt.pluginConfig).1
        let tos := tf₁.taskOptions.getD []
        match findTaskOptionIndex tos pluginName with
        | some i =>
          let old := tos.getD i defaultTaskOption
          decide (c.1.Perm (envRemainder old opt.taskOption)) &&
            decide (c.2.Perm (envFromRemainder old opt.taskOption))
        | none => true

def choicesAdmissible (tf : Terraform) : List (DirEntry × ChoicePair) → Bool
  | [] => true
  | (f, c) :: rest =>
    stepAdmissible tf f c &&
      (match stepFile tf f c with
       | .next tf' => choicesAdmissible tf' rest
       | _ => true)

/-- The reproducibility claim as the specification words it: iterating the
sorted directory, any two admissible runs over the same resource and the
same directory contents produce the same result. -/
def C9Statement (tf : Terraform) (dir : List DirEntry) : Prop :=
  ∀ cs₁ cs₂ : List ChoicePair,
    choicesAdmissible tf ((ls dir).zip cs₁) = true →
    choicesAdmissible tf ((ls dir).zip cs₂) = true →
    mutateLoop tf ((ls dir).zip cs₁) = mutateLoop tf ((ls dir).zip cs₂)

/-- Time quantities in nanoseconds, mirroring Go's `time.Duration`. -/
def nsPerSecond : Int := 1000000000

def nsPerHour : Int := 3600 * nsPerSecond

def nsPerDay : Int := 24 * nsPerHour

def tenSecondsNs : Int := 10 * nsPerSecond

def twentyFourHoursNs : Int := 24 * nsPerHour

/-- The forward-dating used by `isCertValid`, exactly as the source writes
it: `t.Add(24 * 30 * time.Hour)`. -/
def goForwardWindowNs : Int := 24 * 30 * nsPerHour

/-- The parsed leaf certificate, as far as `x509.Certificate.Verify`
consults it: validity window (nanoseconds since the epoch), the
subject-alternative-name set, and whether the signature chains to the
configured root pool. -/
structure Cert where
  parses : Bool
  notBefore : Int
  notAfter : Int
  dnsNames : List String
  chainsToCA : Bool
deriving DecidableEq, Repr

/-- `cert.Verify(opts)` with `opts.CurrentTime = t`, `opts.DNSName = dn`
and the CA pool as roots: the chain must verify, the name must be among
the SANs, and `t` must lie in the validity window. -/
def verifyAt (c : Cert) (t : Int) (dn : String) : Bool :=
  c.chainsToCA && c.dnsNames.contains dn &&
    decide (c.notBefore ≤ t) && decide (t ≤ c.notAfter)

/-- `isCertValid`: fail if the CA PEM does not yield a root pool, fail if
the leaf does not parse, otherwise verify the leaf at
`now + 24*30*time.Hour` against the first DNS alias. -/
def isCertValid (caPoolOK : Bool) (c : Cert) (dnsNames : List String) (now : Int) : Bool :=
  if !caPoolOK then false
  else if !c.parses then false
  else verifyAt c (now + goForwardWindowNs) (dnsNames.headD "")

/-- `genDNSNames`. -/
def genDNSNames (svc ns : String) : List String :=
  [svc, svc ++ "." ++ ns, svc ++ "." ++ ns ++ ".svc",
   svc ++ "." ++ ns ++ ".svc.cluster.local"]

/-- Everything one `certMgmt` cycle observes after `GetOrCreateSecret`
returned: the four stored secret fields, whether each mounted file exists
and is non-empty, the mounted bytes, whether each mounted blob passes
`isX509Format`, and the material `isCertValid` consults. -/
structure CycleInput where
  secretCaKey : String
  secretCaCert : String
  secretTlsKey : String
  secretTlsCert : String
  foundCaKey : Bool
  foundCaCert : Bool
  foundTlsKey : Bool
  foundTlsCert : Bool
  caKeyBytes : String
  caCertBytes : String
  tlsKeyBytes : String
  tlsCertBytes : String
  caKeyWellFormed : Bool
  caCertWellFormed : Bool
  tlsKeyWellFormed : Bool
  tlsCertWellFormed : Bool
  caPoolOK : Bool
  leaf : Cert
  now : Int
deriving Repr

/-- The externally visible effects of one `certMgmt` cycle. -/
structure CycleEffects where
  updatedSecret : Bool
  invokedWebhookRegistration : Bool
  signaledReady : Bool
  recheckAfter : Int
  started' : Bool
deriving DecidableEq, Repr

/-- One iteration of the `certMgmt` loop (after `GetOrCreateSecret`),
following the source's branch order: missing/empty files, the four
`isX509Format` checks, the four byte comparisons against the secret, then
`isCertValid` deciding between the healthy branch (register the webhook,
signal readiness on the first healthy cycle, 24h interval) and the
rotation branch (`UpdateSecret`, 10s interval); any mismatch is the drift
branch (10s interval, no writes). -/
def certMgmtCycle (dnsNames : List String) (inp : CycleInput) (started : Bool) :
    CycleEffects :=
  if !(inp.foundCaKey && inp.foundCaCert && inp.foundTlsKey && inp.foundTlsCert) then
    ⟨false, false, false, tenSecondsNs, started⟩
  else if !inp.caKeyWellFormed then ⟨false, false, false, tenSecondsNs, started⟩
  else if !inp.caCertWellFormed then ⟨false, false, false, tenSecondsNs, started⟩
  else if !inp.tlsKeyWellFormed then ⟨false, false, false, tenSecondsNs, started⟩
  else if !inp.tlsCertWellFormed then ⟨false, false, false, tenSecondsNs, started⟩
  else if inp.secretCaKey = inp.caKeyBytes ∧ inp.secretCaCert = inp.caCertBytes ∧
      inp.secretTlsKey = inp.tlsKeyBytes ∧ inp.secretTlsCert = inp.tlsCertBytes then
    if isCertValid inp.caPoolOK inp.leaf dnsNames inp.now then
      ⟨false, true, !started, twentyFourHoursNs, true⟩
    else
      ⟨true, false, false, tenSecondsNs, started⟩
  else
    ⟨false, false, false, tenSecondsNs, started⟩

/-- The branch condition of the healthy path of a cycle. -/
def healthyCycle (dnsNames : List String) (inp : CycleInput) : Bool :=
  inp.foundCaKey && inp.foundCaCert && inp.foundTlsKey && inp.foundTlsCert &&
    inp.caKeyWellFormed && inp.caCertWellFormed && inp.tlsKeyWellFormed &&
    inp.tlsCertWellFormed &&
    decide (inp.secretCaKey = inp.caKeyBytes) &&
    decide (inp.secretCaCert = inp.caCertBytes) &&
    decide (inp.secretTlsKey = inp.tlsKeyBytes) &&
    decide (inp.secretTlsCert = inp.tlsCertBytes) &&
    isCertValid inp.caPoolOK inp.leaf dnsNames inp.now

/-- Total number of sends on the one-shot readiness channel over a run of
consecutive cycles, threading the `started` flag exactly as the loop
does. -/
def signalCount (dnsNames : List String) : List CycleInput → Bool → Nat
  | [], _ => 0
  | inp :: rest, started =>
    let e := certMgmtCycle dnsNames inp started
    (if e.signaledReady then 1 else 0) + signalCount dnsNames rest e.started'

/-- The `ServiceReference` inside the webhook client config. -/
structure ServiceRef where
  inNamespace : String
  serviceName : String
  port : Int
  path : String
deriving DecidableEq, Repr

/-- The single `MutatingWebhook` entry the registrar creates. -/
structure MutatingWebhook where
  webhookName : String
  caBundle : String
  service : ServiceRef
  admissionReviewVersions : List String
  timeoutSeconds : Int
  operations : List String
  apiGroups : List String
  apiVersions : List String
  resources : List String
  failurePolicy : String
  sideEffects : String
deriving DecidableEq, Repr

/-- A `MutatingWebhookConfiguration` object. -/
structure MutatingWebhookConfiguration where
  configName : String
  webhooks : List MutatingWebhook
deriving DecidableEq, Repr

/-- The configuration `createOrUpdateMutatingWebhookConfiguration` builds
when the lookup reports not-found, field for field. -/
def mkMutatingWebhookConfiguration (cfgName ns svc caBundle : String) :
    MutatingWebhookConfiguration :=
  { configName := cfgName
    webhooks := [
      { webhookName := cfgName ++ ".galleybytes.com"
        caBundle := caBundle
        service := { inNamespace := ns, serviceName := svc, port := 443, path := "/mutate" }
        admissionReviewVersions := ["v1"]
        timeoutSeconds := 30
        operations := ["CREATE", "UPDATE"]
        apiGroups := ["tf.isaaguilar.com"]
        apiVersions := ["v1alpha2"]
        resources := ["terraforms"]
        failurePolicy := "Fail"
        sideEffects := "None" }] }

/-- `createOrUpdateMutatingWebhookConfiguration`: look up the named
registration in the cluster; if found, do nothing; if not found, read the
CA bundle file (a missing bundle is a `log.Panic`, modelled as
`Except.error`) and create the registration.  Returns the new cluster
state and whether a create was issued. -/
def createOrUpdateMWC (cluster : Option MutatingWebhookConfiguration)
    (caBundle : Option String) (cfgName ns svc : String) :
    Except Unit (Option MutatingWebhookConfiguration × Bool) :=
  match cluster with
  | some w => .ok (some w, false)
  | none =>
    match caBundle with
    | none => .error ()
    | some cb => .ok (some (mkMutatingWebhookConfiguration cfgName ns svc cb), true)

/-- Specification-side view of the index map built by `mergeTaskOptions`
when the keys are distinct: entry `(key xs[t], start + t)` for each `t`. -/
def indexList {α κ : Type} (key : α → κ) : Nat → List α → List (κ × Nat)
  | _, [] => []
  | i, a :: rest => (key a, i) :: indexList key (i + 1) rest

/-- The `Allowed` flag carried by the handler's outcome, if any response
was produced at all. -/
def respAllowed : MutateOutcome → Option Bool
  | .response r => some r.allowed
  | .panic => none

/-- Placeholder webhook used as the default of `List.headD`. -/
def webhookDflt : MutatingWebhook :=
  ⟨"", "", ⟨"", "", 0, ""⟩, [], 0, [], [], [], [], "", ""⟩

/-- Concrete inputs refuting the order-preservation part of the merge law:
an empty old env list and a new env list with two fresh names. -/
def c1CexOld : TaskOption := ⟨["p"], [], [], none, none, "", "", ""⟩

def c1CexNew : TaskOption :=
  ⟨[], [⟨"A", "1"⟩, ⟨"B", "2"⟩], [], none, none, "", "", ""⟩

/-- Concrete resource and policy directory refuting run-to-run
reproducibility: the single policy merges two fresh env names into an
existing task option, so the append order is a map-iteration order. -/
def c9CexOption : TaskOption :=
  ⟨["p"], [], [], some [], some [], "Always", "", ""⟩

def c9CexResource : Terraform := ⟨some [], none, some [c9CexOption]⟩

def c9CexEntry : DirEntry :=
  ⟨"p.json", false, some ⟨"sk", ⟨"img", ""⟩, c1CexNew⟩⟩

/-! ## Theorems -/

/-- C4 (amended): a decode failure on the embedded raw object yields an
admission response through the normal response channel — the handler does
not fail at the HTTP level and applies no patch, and the response carries
the decode error as its status message — but the response's `Allowed`
flag is `false` (the Go struct literal leaves `Allowed` at its zero
value), not `true` as the specification words it. -/
theorem decode_failure_response (msg : String) (files : List (DirEntry × ChoicePair))
    (cp : Terraform → Except String (List PatchOp)) :
    mutate true (.error msg) files cp = .response ⟨false, none, some msg⟩ := rfl

/-- C4 (counterexample): at a concrete decode failure the response is not
allowed — `respAllowed` evaluates to `some false`, refuting the claim that
the service returns an allowed response. -/
theorem decode_failure_not_allowed :
    respAllowed (mutate true (.error "yaml: parse error") []
        (fun _ => .ok [])) = some false ∧
      respAllowed (mutate true (.error "yaml: parse error") []
        (fun _ => .ok [])) ≠ some true := by
  constructor
  · rfl
  · intro h
    rw [show respAllowed (mutate true (.error "yaml: parse error") []
      (fun _ => .ok [])) = some false from rfl] at h
    exact Bool.noConfusion (Option.some.inj h)

/-- C8: the webhook registrar is idempotent.  A lookup that finds the
registration performs no write; a not-found lookup creates exactly one
registration whose single webhook routes to `/mutate` with operations
CREATE and UPDATE, `failurePolicy=Fail`, `sideEffects=None`,
`admissionReviewVersions=["v1"]` and `timeoutSeconds=30`; and invoking the
operation again after that creation changes nothing. -/
theorem webhook_registration_idempotent (cb cfgName ns svc : String)
    (w : MutatingWebhookConfiguration) :
    createOrUpdateMWC (some w) (some cb) cfgName ns svc = .ok (some w, false) ∧
    createOrUpdateMWC none (some cb) cfgName ns svc =
      .ok (some (mkMutatingWebhookConfiguration cfgName ns svc cb), true) ∧
    (mkMutatingWebhookConfiguration cfgName ns svc cb).webhooks.length = 1 ∧
    ((mkMutatingWebhookConfiguration cfgName ns svc cb).webhooks.headD
        webhookDflt).operations = ["CREATE", "UPDATE"] ∧
    ((mkMutatingWebhookConfiguration cfgName ns svc cb).webhooks.headD
        webhookDflt).service.path = "/mutate" ∧
    ((mkMutatingWebhookConfiguration cfgName ns svc cb).webhooks.headD
        webhookDflt).failurePolicy = "Fail" ∧
    ((mkMutatingWebhookConfiguration cfgName ns svc cb).webhooks.headD
        webhookDflt).sideEffects = "None" ∧
    ((mkMutatingWebhookConfiguration cfgName ns svc cb).webhooks.headD
        webhookDflt).admissionReviewVersions = ["v1"] ∧
    ((mkMutatingWebhookConfiguration cfgName ns svc cb).webhooks.headD
        webhookDflt).timeoutSeconds = 30 ∧
    createOrUpdateMWC (some (mkMutatingWebhookConfiguration cfgName ns svc cb))
        (some cb) cfgName ns svc =
      .ok (some (mkMutatingWebhookConfiguration cfgName ns svc cb), false) :=
  ⟨rfl, rfl, rfl, rfl, rfl, rfl, rfl, rfl, rfl, rfl⟩

/-- C5: in a cycle where all four certificate files are mounted but any
mounted blob differs from the corresponding stored secret field, the cycle
performs no secret update and no webhook registration and the next poll
uses the short ten-second interval.  (When a mounted blob additionally
fails the well-formedness checks the same conclusion holds via an earlier
branch, so no well-formedness hypothesis is needed.) -/
theorem drift_cycle_is_noop (dns : List String) (inp : CycleInput) (st : Bool)
    (h1 : inp.foundCaKey = true) (h2 : inp.foundCaCert = true)
    (h3 : inp.foundTlsKey = true) (h4 : inp.foundTlsCert = true)
    (hdiff : ¬(inp.secretCaKey = inp.caKeyBytes ∧ inp.secretCaCert = inp.caCertBytes ∧
      inp.secretTlsKey = inp.tlsKeyBytes ∧ inp.secretTlsCert = inp.tlsCertBytes)) :
    (certMgmtCycle dns inp st).updatedSecret = false ∧
    (certMgmtCycle dns inp st).invokedWebhookRegistration = false ∧
    (certMgmtCycle dns inp st).recheckAfter = tenSecondsNs := by
  unfold certMgmtCycle
  rw [h1, h2, h3, h4]
  split_ifs <;> exact ⟨rfl, rfl, rfl⟩

/-- C5 witness. -/
theorem drift_cycle_is_noop_check :
    (certMgmtCycle ["a"]
      ⟨"k", "c", "tk", "tc", true, true, true, true, "k", "x", "tk", "tc",
        true, true, true, true, true, ⟨true, 0, 0, ["a"], true⟩, 0⟩
      false).updatedSecret = false ∧
    (certMgmtCycle ["a"]
      ⟨"k", "c", "tk", "tc", true, true, true, true, "k", "x", "tk", "tc",
        true, true, true, true, true, ⟨true, 0, 0, ["a"], true⟩, 0⟩
      false).invokedWebhookRegistration = false ∧
    (certMgmtCycle ["a"]
      ⟨"k", "c", "tk", "tc", true, true, true, true, "k", "x", "tk", "tc",
        true, true, true, true, true, ⟨true, 0, 0, ["a"], true⟩, 0⟩
      false).recheckAfter = tenSecondsNs :=
  drift_cycle_is_noop ["a"] _ false rfl rfl rfl rfl (by decide)

/-- C6: `isCertValid` classifies the leaf as valid exactly when the chain
verification succeeds at a time 30 days after now (the source's
`24 * 30 * time.Hour` equals 30 days), using the first configured DNS
alias as the verification name; in particular a leaf expiring within the
30-day window is classified invalid, and an otherwise verifiable leaf
expiring beyond it is classified valid. -/
theorem cert_validity_thirty_day_window (caOK : Bool) (c : Cert) (dns : List String)
    (now : Int) :
    (isCertValid caOK c dns now =
      (caOK && c.parses && verifyAt c (now + 30 * nsPerDay) (dns.headD ""))) ∧
    (c.notAfter < now + 30 * nsPerDay → isCertValid caOK c dns now = false) ∧
    (caOK = true → c.parses = true → c.chainsToCA = true →
      dns.headD "" ∈ c.dnsNames → c.notBefore ≤ now + 30 * nsPerDay →
      now + 30 * nsPerDay ≤ c.notAfter → isCertValid caOK c dns now = true) := by
  have hw : goForwardWindowNs = 30 * nsPerDay := by decide
  refine ⟨?_, ?_, ?_⟩
  · unfold isCertValid
    rw [hw]
    cases caOK <;> cases hp : c.parses <;> simp [hp]
  · intro hlt
    unfold isCertValid
    rw [hw]
    cases caOK <;> cases hp : c.parses <;> simp [hp]
    unfold verifyAt
    have hd : decide (now + 30 * nsPerDay ≤ c.notAfter) = false := by
      simp only [decide_eq_false_iff_not]
      omega
    rw [hd]
    simp
  · intro hok hp hch hmem hnb hna
    unfold isCertValid
    rw [hw, hok, hp]
    unfold verifyAt
    simp [hch, hnb, hna, List.contains, List.elem_eq_mem]
    simpa using hmem

/-- C6 witness. -/
theorem cert_validity_thirty_day_window_check :
    isCertValid true ⟨true, 0, 3000000000000000, ["svc"], true⟩ ["svc"] 0 = true ∧
    isCertValid true ⟨true, 0, 1000000000000000, ["svc"], true⟩ ["svc"] 0 = false :=
  ⟨(cert_validity_thirty_day_window true ⟨true, 0, 3000000000000000, ["svc"], true⟩
      ["svc"] 0).2.2 rfl rfl rfl (by decide) (by decide) (by decide),
   (cert_validity_thirty_day_window true ⟨true, 0, 1000000000000000, ["svc"], true⟩
      ["svc"] 0).2.1 (by decide)⟩

/-- A cycle signals readiness exactly when it is healthy and the loop has
not signalled before. -/
theorem certMgmtCycle_signaledReady (dns : List String) (inp : CycleInput) (st : Bool) :
    (certMgmtCycle dns inp st).signaledReady = (healthyCycle dns inp && !st) := by
  unfold certMgmtCycle healthyCycle
  split_ifs with hA hB hC hD hE hF hG <;> simp_all <;> intros <;> simp_all

/-- The `started` flag is monotone: it is set by a healthy cycle and never
cleared. -/
theorem certMgmtCycle_started (dns : List String) (inp : CycleInput) (st : Bool) :
    (certMgmtCycle dns inp st).started' = (st || healthyCycle dns inp) := by
  unfold certMgmtCycle healthyCycle
  split_ifs with hA hB hC hD hE hF hG <;> simp_all <;> intros <;> simp_all

/-- C7: over any sequence of cycles starting with `started = false`, the
readiness channel is signalled exactly once when some cycle is healthy and
never otherwise — the first healthy cycle sends, and no later healthy
cycle sends again. -/
theorem readiness_signaled_exactly_once (dns : List String) : ∀ inps : List CycleInput,
    signalCount dns inps false = (if inps.any (healthyCycle dns) then 1 else 0) := by
  have hzero : ∀ inps : List CycleInput, signalCount dns inps true = 0 := by
    intro inps
    induction inps with
    | nil => rfl
    | cons i r ih =>
      simp only [signalCount]
      rw [certMgmtCycle_signaledReady, certMgmtCycle_started]
      simp [ih]
  intro inps
  induction inps with
  | nil => rfl
  | cons i r ih =>
    simp only [signalCount]
    rw [certMgmtCycle_signaledReady, certMgmtCycle_started]
    cases h : healthyCycle dns i
    · simp [h, ih, List.any_cons]
    · simp [h, hzero, List.any_cons]

/-- C2: whatever response the `mutate` handler produces, no operation of
the patch it carries has a path beginning with `/status` — the post-filter
drops such operations, error responses carry no patch, and the explicit
empty patch has no operations. -/
theorem mutate_patch_never_touches_status (rm : Bool) (dec : Except String Terraform)
    (files : List (DirEntry × ChoicePair))
    (cp : Terraform → Except String (List PatchOp)) (r : AdmissionResponse)
    (ps : List PatchOp) (p : PatchOp)
    (hmut : mutate rm dec files cp = .response r)
    (hpatch : r.patch = some ps) (hmem : p ∈ ps) :
    strHasPrefix "/status" p.path = false := by
  unfold mutate at hmut
  split at hmut
  · cases hmut
    cases hpatch
    cases hmem
  · split at hmut
    · cases hmut
      cases hpatch
    · split at hmut
      · cases hmut
        cases hpatch
        cases hmem
      · cases hmut
      · split at hmut
        · cases hmut
          cases hpatch
        · dsimp only at hmut
          split at hmut
          · cases hmut
            cases hpatch
            cases hmem
          · cases hmut
            cases hpatch
            have := List.mem_filter.mp hmem
            simpa using this.2

/-- C2 witness. -/
theorem mutate_patch_never_touches_status_check :
    strHasPrefix "/status" "/spec/plugins/p" = false :=
  mutate_patch_never_touches_status true (.ok ⟨none, none, none⟩) []
    (fun _ => .ok [⟨"add", "/spec/plugins/p", "x"⟩])
    ⟨true, some [⟨"add", "/spec/plugins/p", "x"⟩], none⟩
    [⟨"add", "/spec/plugins/p", "x"⟩] ⟨"add", "/spec/plugins/p", "x"⟩
    (by decide) rfl (List.mem_singleton.mpr rfl)

/-- C10: merging panics on a nil map — when the old task option's labels
map (respectively annotations map) is nil and the new one carries at least
one label (respectively annotation), `mergeTaskOptions` assigns into the
nil map and panics, and a `/mutate` request whose resource reaches such a
merge makes the handler terminate without returning a merged result (no
response at all). -/
theorem nil_label_map_merge_panics (old new : TaskOption) (σ : List (String × Nat))
    (τ : List (EnvFromSource × Nat)) (L : List (String × String))
    (sk : String) (pl : Plugin)
    (cp : Terraform → Except String (List PatchOp)) :
    (old.labels = none → new.labels = some L → L ≠ [] →
      mergeTaskOptionsWith old new σ τ = .error ()) ∧
    (old.annotations = none → new.annotations = some L → L ≠ [] →
      mergeTaskOptionsWith old new σ τ = .error ()) ∧
    (old.labels = none → new.labels = some L → L ≠ [] →
      mutate true (.ok ⟨some [], none, some [{ old with forNames := ["p"] }]⟩)
        [(⟨"p.json", false, some ⟨sk, pl, new⟩⟩, (σ, τ))] cp = .panic) := by
  refine ⟨?_, ?_, ?_⟩
  · intro hL hN hne
    unfold mergeTaskOptionsWith
    rw [hL, hN]
    cases L with
    | nil => exact absurd rfl hne
    | cons a t => rfl
  · intro hA hN hne
    unfold mergeTaskOptionsWith
    cases hres : mergeLabelMap old.labels new.labels with
    | error e => rfl
    | ok v =>
      rw [hA, hN]
      cases L with
      | nil => exact absurd rfl hne
      | cons a t => rfl
  · intro hL hN hne
    have hmerge : mergeTaskOptionsWith { old with forNames := ["p"] } new σ τ
        = .error () := by
      unfold mergeTaskOptionsWith
      rw [show ({ old with forNames := ["p"] } : TaskOption).labels = none from hL, hN]
      cases L with
      | nil => exact absurd rfl hne
      | cons a t => rfl
    unfold mutate mutateLoop stepFile
    have hsuf : strHasSuffix ".json" "p.json" = true := by decide
    have hdir : (⟨"p.json", false, some ⟨sk, pl, new⟩⟩ : DirEntry).isDir = false := rfl
    have htrim : strTrimSuffix "p.json" ".json" = "p" := by decide
    have hfind : findTaskOptionIndex [{ old with forNames := ["p"] }] "p" = some 0 := rfl
    simp only [hdir, hsuf, htrim, Bool.not_true, Bool.false_eq_true, if_false, ite_false,
      doSkip, List.any_nil, applyPolicy, updatePlugins, Option.getD, hfind,
      List.getD_cons_zero, hmerge]

/-- C10 witness. -/
theorem nil_label_map_merge_panics_check :
    mergeTaskOptionsWith defaultTaskOption
      ⟨[], [], [], some [("k", "v")], none, "", "", ""⟩ [] [] = .error () ∧
    mutate true (.ok ⟨some [], none, some [{ defaultTaskOption with forNames := ["p"] }]⟩)
      [(⟨"p.json", false,
          some ⟨"sk", ⟨"img", ""⟩, ⟨[], [], [], some [("k", "v")], none, "", "", ""⟩⟩⟩,
        ([], []))]
      (fun _ => .ok []) = .panic :=
  ⟨(nil_label_map_merge_panics defaultTaskOption
      ⟨[], [], [], some [("k", "v")], none, "", "", ""⟩ [] [] [("k", "v")] "sk"
      ⟨"img", ""⟩ (fun _ => .ok [])).1 rfl rfl (by decide),
   (nil_label_map_merge_panics defaultTaskOption
      ⟨[], [], [], some [("k", "v")], none, "", "", ""⟩ [] [] [("k", "v")] "sk"
      ⟨"img", ""⟩ (fun _ => .ok [])).2.2 rfl rfl (by decide)⟩

/-- `updatePlugins` never touches the resource's annotations. -/
theorem updatePlugins_annotations (tf : Terraform) (n : String) (p : Plugin) :
    ((updatePlugins tf n p).1).annotations = tf.annotations := by
  unfold updatePlugins
  dsimp only
  split <;> rfl

/-- `applyPolicy` never touches the resource's annotations. -/
theorem applyPolicy_annotations (tf tf' : Terraform) (n : String)
    (opt : PluginOption) (c : ChoicePair)
    (h : applyPolicy tf n opt c = .ok tf') : tf'.annotations = tf.annotations := by
  unfold applyPolicy at h
  dsimp only at h
  split at h
  · split at h
    · cases h
    · cases h
      exact updatePlugins_annotations tf n opt.pluginConfig
  · cases h
    exact updatePlugins_annotations tf n opt.pluginConfig

/-- One loop step preserves non-nil annotations. -/
theorem stepFile_annotations (tf tf' : Terraform) (f : DirEntry) (c : ChoicePair)
    (m : List (String × String)) (hann : tf.annotations = some m)
    (h : stepFile tf f c = .next tf') : tf'.annotations = some m := by
  unfold stepFile at h
  split at h
  · cases h; exact hann
  · split at h
    · cases h; exact hann
    · split at h
      · cases h
      · dsimp only at h
        split at h
        · cases h
          simp [doSkip, hann]
        · split at h
          · cases h
          · cases h
            next happ =>
            have := applyPolicy_annotations _ _ _ _ _ happ
            rw [this]
            simp [doSkip, hann]

/-- A parsed policy file whose skip key is among the resource's
annotations makes the loop step a no-op. -/
theorem stepFile_skips (tf : Terraform) (f : DirEntry) (c : ChoicePair)
    (m : List (String × String)) (opt : PluginOption)
    (hann : tf.annotations = some m)
    (hdir : f.isDir = false) (hjson : strHasSuffix ".json" f.name = true)
    (hcontent : f.content = some opt)
    (hskip : m.any (fun q => q.1 = opt.skipKey) = true) :
    stepFile tf f c = .next tf := by
  unfold stepFile
  rw [hdir, hjson, hcontent]
  unfold doSkip
  rw [hann]
  simp [hskip]

/-- Removing a skipped policy from anywhere in the policy sequence leaves
the loop's result unchanged. -/
theorem mutateLoop_drop_skipped (post : List (DirEntry × ChoicePair)) (f : DirEntry)
    (c : ChoicePair) (opt : PluginOption)
    (hdir : f.isDir = false) (hjson : strHasSuffix ".json" f.name = true)
    (hcontent : f.content = some opt) :
    ∀ (pre : List (DirEntry × ChoicePair)) (tf : Terraform) (m : List (String × String)),
    tf.annotations = some m →
    m.any (fun q => q.1 = opt.skipKey) = true →
    mutateLoop tf (pre ++ (f, c) :: post) = mutateLoop tf (pre ++ post) := by
  intro pre
  induction pre with
  | nil =>
    intro tf m hann hskip
    simp only [List.nil_append, mutateLoop]
    rw [stepFile_skips tf f c m opt hann hdir hjson hcontent hskip]
  | cons gc rest ih =>
    intro tf m hann hskip
    simp only [List.cons_append, mutateLoop]
    cases hstep : stepFile tf gc.1 gc.2 with
    | next tf' =>
      have hann' := stepFile_annotations tf tf' gc.1 gc.2 m hann hstep
      exact ih tf' m hann' hskip
    | abort => rfl
    | panicked => rfl

/-- C3: a policy whose configured skip-annotation key is present among the
decoded resource's annotations (whatever the value) is not applied, while
every other policy still is: processing the sequence with that policy
present gives exactly the same loop result and the same `mutate` response
as processing it with that policy removed. -/
theorem skip_annotation_skips_one_policy (tf : Terraform) (m : List (String × String))
    (opt : PluginOption) (f : DirEntry) (c : ChoicePair)
    (pre post : List (DirEntry × ChoicePair))
    (cp : Terraform → Except String (List PatchOp))
    (hann : tf.annotations = some m)
    (hdir : f.isDir = false) (hjson : strHasSuffix ".json" f.name = true)
    (hcontent : f.content = some opt)
    (hskip : m.any (fun q => q.1 = opt.skipKey) = true) :
    mutateLoop tf (pre ++ (f, c) :: post) = mutateLoop tf (pre ++ post) ∧
    mutate true (.ok tf) (pre ++ (f, c) :: post) cp =
      mutate true (.ok tf) (pre ++ post) cp := by
  have hloop := mutateLoop_drop_skipped post f c opt hdir hjson hcontent pre tf m hann hskip
  refine ⟨hloop, ?_⟩
  simp only [mutate, hloop]

/-- C3 witness. -/
theorem skip_annotation_skips_one_policy_check :
    mutateLoop ⟨some [("skip-me", "1")], none, none⟩
        ([] ++ (⟨"a.json", false, some ⟨"skip-me", ⟨"i", ""⟩, defaultTaskOption⟩⟩,
          (([], []) : ChoicePair)) :: []) =
      mutateLoop ⟨some [("skip-me", "1")], none, none⟩ ([] ++ []) ∧
    mutate true (.ok ⟨some [("skip-me", "1")], none, none⟩)
        ([] ++ (⟨"a.json", false, some ⟨"skip-me", ⟨"i", ""⟩, defaultTaskOption⟩⟩,
          (([], []) : ChoicePair)) :: []) (fun _ => .ok []) =
      mutate true (.ok ⟨some [("skip-me", "1")], none, none⟩) ([] ++ [])
        (fun _ => .ok []) :=
  skip_annotation_skips_one_policy ⟨some [("skip-me", "1")], none, none⟩
    [("skip-me", "1")] ⟨"skip-me", ⟨"i", ""⟩, defaultTaskOption⟩
    ⟨"a.json", false, some ⟨"skip-me", ⟨"i", ""⟩, defaultTaskOption⟩⟩ ([], []) [] []
    (fun _ => .ok []) rfl rfl (by decide) rfl (by decide)

section MergeLemmas

variable {α κ : Type} [DecidableEq κ]

/-- Deleting one key leaves lookups of other keys unchanged. -/
theorem mapLookup_delete_ne (k k' : κ) (h : ¬ k' = k) :
    ∀ m : List (κ × Nat), mapLookup (mapDelete m k) k' = mapLookup m k' := by
  intro m
  induction m with
  | nil => rfl
  | cons p rest ih =>
    have h3 : ¬ k = k' := fun he => h he.symm
    by_cases hp : p.1 = k
    · have h2 : ¬ p.1 = k' := fun he => h (he ▸ hp)
      simp [mapDelete, mapLookup, hp, h2, h3, ih]
    · by_cases hq : p.1 = k'
      · simp [mapDelete, mapLookup, hp, hq, h]
      · simp [mapDelete, mapLookup, hp, hq, ih]

/-- A lookup misses exactly when no entry carries the key. -/
theorem mapLookup_none_iff (k : κ) : ∀ m : List (κ × Nat),
    mapLookup m k = none ↔ ∀ p ∈ m, ¬ p.1 = k := by
  intro m
  induction m with
  | nil => simp [mapLookup]
  | cons p rest ih =>
    unfold mapLookup
    by_cases hp : p.1 = k
    · simp [hp]
    · simp [hp, ih]

/-- The walked list of the replace-in-place loop: with distinct old keys,
each element is replaced by the new list's entry at the looked-up index,
independently of the deletions made along the way. -/
theorem replacePhase_fst (key : α → κ) (newList : List α) (d : α) :
    ∀ (l : List α) (m : List (κ × Nat)), (l.map key).Nodup →
    (replacePhase key newList d l m).1 =
      l.map (fun a => match mapLookup m (key a) with
                      | some i => newList.getD i d
                      | none => a) := by
  intro l
  induction l with
  | nil => intro m _; rfl
  | cons a rest ih =>
    intro m hnd
    rw [List.map_cons, List.nodup_cons] at hnd
    unfold replacePhase
    cases hlk : mapLookup m (key a) with
    | none =>
      simp only [List.map_cons, hlk]
      rw [ih m hnd.2]
    | some i =>
      simp only [List.map_cons, hlk]
      rw [ih (mapDelete m (key a)) hnd.2]
      congr 1
      apply List.map_congr_left
      intro b hb
      have hne : ¬ key b = key a := by
        intro he
        exact hnd.1 (he ▸ List.mem_map_of_mem key hb)
      rw [mapLookup_delete_ne (key a) (key b) hne m]

/-- Filtering after a delete equals filtering with the deleted key added
to the excluded set. -/
theorem filter_mapDelete (ka : κ) (L : List κ) : ∀ m : List (κ × Nat),
    (mapDelete m ka).filter (fun p => !(memB p.1 L)) =
      m.filter (fun p => !(memB p.1 (ka :: L))) := by
  intro m
  induction m with
  | nil => rfl
  | cons q qs ih =>
    by_cases hq : q.1 = ka
    · have hmem : memB q.1 (ka :: L) = true := by
        simp only [memB]
        rw [if_pos hq.symm]
      rw [show mapDelete (q :: qs) ka = mapDelete qs ka from by
        simp only [mapDelete]; rw [if_pos hq]]
      rw [ih, List.filter_cons, hmem]
      simp
    · have hmem : memB q.1 (ka :: L) = memB q.1 L := by
        simp only [memB]
        rw [if_neg (fun he => hq he.symm)]
      rw [show mapDelete (q :: qs) ka = q :: mapDelete qs ka from by
        simp only [mapDelete]; rw [if_neg hq]]
      rw [List.filter_cons, List.filter_cons, hmem, ih]

/-- The remaining map after the replace-in-place loop: exactly the entries
whose key does not occur in the walked list. -/
theorem replacePhase_snd (key : α → κ) (newList : List α) (d : α) :
    ∀ (l : List α) (m : List (κ × Nat)),
    (replacePhase key newList d l m).2 =
      m.filter (fun p => !(memB p.1 (l.map key))) := by
  intro l
  induction l with
  | nil =>
    intro m
    simp [replacePhase, memB]
  | cons a rest ih =>
    intro m
    unfold replacePhase
    cases hlk : mapLookup m (key a) with
    | none =>
      simp only
      rw [ih m]
      apply List.filter_congr
      intro p hp
      have hne : ¬ p.1 = key a := (mapLookup_none_iff (key a) m).mp hlk p hp
      have hne' : ¬ key a = p.1 := fun he => hne he.symm
      simp [memB, hne']
    | some i =>
      simp only
      rw [ih (mapDelete m (key a))]
      exact filter_mapDelete (key a) (rest.map key) m

/-- With distinct keys none of which occur in the accumulator, the Go
index-map fold is plain accumulation of `(key, index)` pairs. -/
theorem buildIndexMapFrom_append (key : α → κ) :
    ∀ (xs : List α) (start : Nat) (m : List (κ × Nat)),
    (xs.map key).Nodup → (∀ a ∈ xs, ∀ p ∈ m, ¬ p.1 = key a) →
    buildIndexMapFrom key start xs m = m ++ indexList key start xs := by
  intro xs
  induction xs with
  | nil =>
    intro start m _ _
    simp [buildIndexMapFrom, indexList]
  | cons a rest ih =>
    intro start m hnd hdisj
    rw [List.map_cons, List.nodup_cons] at hnd
    have hins : mapInsert m (key a) start = m ++ [(key a, start)] := by
      unfold mapInsert
      rw [if_neg]
      intro hany
      rw [List.any_eq_true] at hany
      obtain ⟨p, hp, hpk⟩ := hany
      exact hdisj a (List.mem_cons_self a rest) p hp (by simpa using hpk)
    simp only [buildIndexMapFrom, indexList, hins]
    rw [ih (start + 1) (m ++ [(key a, start)]) hnd.2]
    · rw [List.append_assoc]
      rfl
    · intro b hb p hp
      rcases List.mem_append.mp hp with hl | hr
      · exact hdisj b (List.mem_cons_of_mem a hb) p hl
      · have hpe : p = (key a, start) := List.mem_singleton.mp hr
        rw [hpe]
        intro he
        apply hnd.1
        rw [show key a = key b from he]
        exact List.mem_map_of_mem key hb

/-- With distinct keys the index map built by `mergeTaskOptions` is
`indexList`. -/
theorem buildIndexMap_indexList (key : α → κ) (xs : List α)
    (hnd : (xs.map key).Nodup) : buildIndexMap key xs = indexList key 0 xs := by
  unfold buildIndexMap
  rw [buildIndexMapFrom_append key xs 0 [] hnd (by intro a _ p hp; cases hp)]
  rfl

/-- Indexing right past a prefix recovers the element there. -/
theorem getD_append_length (d : α) (a : α) (rest : List α) :
    ∀ pre : List α, (pre ++ a :: rest).getD pre.length d = a := by
  intro pre
  induction pre with
  | nil => rfl
  | cons b pre ih => simpa using ih

/-- Looking an index up in `indexList` and reading the base list there is
the same as searching the base list by key. -/
theorem mapLookup_indexList_getD (key : α → κ) (d : α) :
    ∀ (xs pre : List α) (k : κ),
    (mapLookup (indexList key pre.length xs) k).map (fun i => (pre ++ xs).getD i d)
      = findByKey key k xs := by
  intro xs
  induction xs with
  | nil => intro pre k; rfl
  | cons a rest ih =>
    intro pre k
    rw [show indexList key pre.length (a :: rest)
        = (key a, pre.length) :: indexList key (pre.length + 1) rest from by
      simp only [indexList]]
    rw [show mapLookup ((key a, pre.length) :: indexList key (pre.length + 1) rest) k
        = if key a = k then some pre.length
          else mapLookup (indexList key (pre.length + 1) rest) k from rfl]
    rw [show findByKey key k (a :: rest)
        = if key a = k then some a else findByKey key k rest from rfl]
    by_cases hk : key a = k
    · rw [if_pos hk, if_pos hk]
      rw [show Option.map (fun i => (pre ++ a :: rest).getD i d) (some pre.length)
          = some ((pre ++ a :: rest).getD pre.length d) from rfl]
      rw [getD_append_length d a rest pre]
    · rw [if_neg hk, if_neg hk]
      have hlen : pre.length + 1 = (pre ++ [a]).length := by simp
      have happ : pre ++ a :: rest = (pre ++ [a]) ++ rest := by simp
      rw [hlen, happ]
      exact ih (pre ++ [a]) k

/-- Filtering `indexList` by a key predicate and mapping the indices back
through the base list is filtering the base list by the predicate on its
keys. -/
theorem indexList_filter_map (key : α → κ) (d : α) (P : κ → Bool) :
    ∀ (xs pre : List α),
    ((indexList key pre.length xs).filter (fun p => P p.1)).map
        (fun p => (pre ++ xs).getD p.2 d)
      = xs.filter (fun a => P (key a)) := by
  intro xs
  induction xs with
  | nil => intro pre; rfl
  | cons a rest ih =>
    intro pre
    simp only [indexList, List.filter_cons]
    have hlen : pre.length + 1 = (pre ++ [a]).length := by simp
    have happ : pre ++ a :: rest = (pre ++ [a]) ++ rest := by simp
    cases hP : P (key a) with
    | true =>
      simp only [hP, if_true, List.map_cons]
      rw [getD_append_length d a rest pre]
      congr 1
      rw [hlen, happ]
      exact ih (pre ++ [a])
    | false =>
      simp only [hP, Bool.false_eq_true, if_false]
      rw [hlen, happ]
      exact ih (pre ++ [a])

end MergeLemmas

/-- The merged env list, in closed form: with names unique in old and in
new and an admissible visit order `σ`, the merged env list is old's list
with names-in-both replaced in place by new's entry, followed by `σ`'s
image, and that appended block is a permutation of the names-only-in-new
entries of new. -/
theorem mergeTaskOptions_env (old new : TaskOption) (σ : List (String × Nat))
    (τ : List (EnvFromSource × Nat)) (merged : TaskOption)
    (hndOld : (old.env.map EnvVar.name).Nodup)
    (hndNew : (new.env.map EnvVar.name).Nodup)
    (hσ : σ.Perm (envRemainder old new))
    (hok : mergeTaskOptionsWith old new σ τ = .ok merged) :
    merged.env = old.env.map (fun e => (findByKey EnvVar.name e.name new.env).getD e)
        ++ σ.map (fun p => new.env.getD p.2 envDflt) ∧
    (σ.map (fun p => new.env.getD p.2 envDflt)).Perm
        (new.env.filter (fun n => !(memB n.name (old.env.map EnvVar.name)))) := by
  have hG : ∀ e : EnvVar,
      (match mapLookup (indexList EnvVar.name 0 new.env) (EnvVar.name e) with
       | some i => new.env.getD i envDflt
       | none => e) = (findByKey EnvVar.name e.name new.env).getD e := by
    intro e
    have hF := mapLookup_indexList_getD EnvVar.name envDflt new.env [] e.name
    simp only [List.length_nil, List.nil_append] at hF
    cases hlk : mapLookup (indexList EnvVar.name 0 new.env) e.name with
    | none =>
      rw [hlk] at hF
      rw [show (Option.map (fun i => new.env.getD i envDflt) none : Option EnvVar)
          = none from rfl] at hF
      rw [← hF]
      rfl
    | some i =>
      rw [hlk] at hF
      rw [show Option.map (fun j => new.env.getD j envDflt) (some i)
          = some (new.env.getD i envDflt) from rfl] at hF
      rw [← hF]
      rfl
  have henv : merged.env =
      (replacePhase EnvVar.name new.env envDflt old.env
        (buildIndexMap EnvVar.name new.env)).1 ++
        σ.map (fun p => new.env.getD p.2 envDflt) := by
    unfold mergeTaskOptionsWith at hok
    dsimp only at hok
    split at hok
    · cases hok
    · split at hok
      · cases hok
      · cases hok
        rfl
  rw [replacePhase_fst EnvVar.name new.env envDflt old.env _ hndOld] at henv
  rw [buildIndexMap_indexList EnvVar.name new.env hndNew] at henv
  rw [List.map_congr_left (fun e _ => hG e)] at henv
  have hrem : envRemainder old new =
      (indexList EnvVar.name 0 new.env).filter
        (fun p => !(memB p.1 (old.env.map EnvVar.name))) := by
    unfold envRemainder
    rw [replacePhase_snd, buildIndexMap_indexList EnvVar.name new.env hndNew]
  have hmap : ((indexList EnvVar.name 0 new.env).filter
        (fun p => !(memB p.1 (old.env.map EnvVar.name)))).map
        (fun p => new.env.getD p.2 envDflt)
      = new.env.filter (fun n => !(memB n.name (old.env.map EnvVar.name))) := by
    have hD := indexList_filter_map EnvVar.name envDflt
      (fun k => !(memB k (old.env.map EnvVar.name))) new.env []
    simpa using hD
  have hperm := hσ.map (fun p => new.env.getD p.2 envDflt)
  rw [hrem] at hperm
  rw [hmap] at hperm
  exact ⟨henv, hperm⟩

/-- C1 (amended): for every admissible visit order of the remaining env
map, every name in both old and new ends up at old's original index with
new's entry, and the names only in new are appended exactly once after
old's entries — but only as *some permutation* of new's restriction (the
append order is Go's unspecified map-iteration order), not necessarily in
new's original relative order. -/
theorem merge_env_law_amended (old new : TaskOption) (σ : List (String × Nat))
    (τ : List (EnvFromSource × Nat)) (merged : TaskOption)
    (hndOld : (old.env.map EnvVar.name).Nodup)
    (hndNew : (new.env.map EnvVar.name).Nodup)
    (hσ : σ.Perm (envRemainder old new))
    (hok : mergeTaskOptionsWith old new σ τ = .ok merged) :
    ∃ appended : List EnvVar,
      merged.env =
        old.env.map (fun e => (findByKey EnvVar.name e.name new.env).getD e)
          ++ appended ∧
      appended.Perm
        (new.env.filter (fun n => !(memB n.name (old.env.map EnvVar.name)))) :=
  ⟨σ.map (fun p => new.env.getD p.2 envDflt),
   (mergeTaskOptions_env old new σ τ merged hndOld hndNew hσ hok).1,
   (mergeTaskOptions_env old new σ τ merged hndOld hndNew hσ hok).2⟩

/-- C1 (counterexample): with `old.env = []` and `new.env = [A, B]` the
reversed map-iteration order is admissible and appends `[B, A]`, so the
appended entries do not preserve new's original relative order and the
merge law as the specification states it fails. -/
theorem merge_env_order_counterexample : ¬ C1Statement c1CexOld c1CexNew := by
  intro h
  have := h [("B", 1), ("A", 0)] []
    ⟨["p"], [⟨"B", "2"⟩, ⟨"A", "1"⟩], [], none, none, "", "", ""⟩
    (by decide) (by decide) rfl
  exact absurd this (by decide)

/-- C1 witness. -/
theorem merge_env_law_amended_check :
    ∃ appended : List EnvVar,
      (⟨["p"], [⟨"A", "1"⟩, ⟨"B", "2"⟩], [], none, none, "", "", ""⟩ : TaskOption).env =
        ([⟨"A", "0"⟩] : List EnvVar).map
          (fun e => (findByKey EnvVar.name e.name
            ([⟨"A", "1"⟩, ⟨"B", "2"⟩] : List EnvVar)).getD e) ++ appended ∧
      appended.Perm (([⟨"A", "1"⟩, ⟨"B", "2"⟩] : List EnvVar).filter
        (fun n => !(memB n.name (([⟨"A", "0"⟩] : List EnvVar).map EnvVar.name)))) :=
  merge_env_law_amended ⟨["p"], [⟨"A", "0"⟩], [], none, none, "", "", ""⟩
    ⟨[], [⟨"A", "1"⟩, ⟨"B", "2"⟩], [], none, none, "", "", ""⟩
    [("B", 1)] []
    ⟨["p"], [⟨"A", "1"⟩, ⟨"B", "2"⟩], [], none, none, "", "", ""⟩
    (by decide) (by decide) (by decide) rfl

/-- Two sorted-by-name lists that are permutations of each other and have
pairwise distinct names are equal. -/
theorem sorted_perm_nodup_eq : ∀ (l₁ l₂ : List DirEntry),
    l₁.Perm l₂ → (l₁.map DirEntry.name).Nodup →
    List.Sorted (fun a b : DirEntry => a.name ≤ b.name) l₁ →
    List.Sorted (fun a b : DirEntry => a.name ≤ b.name) l₂ → l₁ = l₂ := by
  intro l₁
  induction l₁ with
  | nil =>
    intro l₂ hp _ _ _
    exact (hp.symm.eq_nil).symm ▸ rfl
  | cons a t₁ ih =>
    intro l₂ hp hnd hs₁ hs₂
    cases l₂ with
    | nil => exact absurd hp.eq_nil (by simp)
    | cons b t₂ =>
      rw [List.map_cons, List.nodup_cons] at hnd
      rw [List.sorted_cons] at hs₁ hs₂
      by_cases hab : a = b
      · subst hab
        have htail := hp.cons_inv
        rw [ih t₂ htail hnd.2 hs₁.2 hs₂.2]
      · exfalso
        have hat₂ : a ∈ t₂ := by
          have := hp.subset (List.mem_cons_self a t₁)
          rcases List.mem_cons.mp this with he | hm
          · exact absurd he hab
          · exact hm
        have hbt₁ : b ∈ t₁ := by
          have := hp.symm.subset (List.mem_cons_self b t₂)
          rcases List.mem_cons.mp this with he | hm
          · exact absurd he.symm hab
          · exact hm
        have h1 : a.name ≤ b.name := hs₁.1 b hbt₁
        have h2 : b.name ≤ a.name := hs₂.1 a hat₂
        have hname : a.name = b.name := le_antisymm h1 h2
        exact hnd.1 (hname ▸ List.mem_map_of_mem DirEntry.name hbt₁)

/-- C9 (amended): policy files are iterated in lexicographic file-name
order (`ioutil.ReadDir` sorts its listing), so the engine's result does
not depend on the order in which the directory enumerates its entries;
with the same merge visit orders, two runs over permuted directory
listings produce identical results.  (Full run-to-run reproducibility
additionally requires the merge visit orders to coincide — see the
counterexample.) -/
theorem policy_iteration_deterministic (d₁ d₂ : List DirEntry) (tf : Terraform)
    (cs : List ChoicePair) (hperm : d₁.Perm d₂)
    (hnd : (d₁.map DirEntry.name).Nodup) :
    List.Sorted (fun a b : DirEntry => a.name ≤ b.name) (ls d₁) ∧
    ls d₁ = ls d₂ ∧
    mutateLoop tf ((ls d₁).zip cs) = mutateLoop tf ((ls d₂).zip cs) := by
  have hs₁ : List.Sorted (fun a b : DirEntry => a.name ≤ b.name) (ls d₁) :=
    List.sorted_insertionSort _ d₁
  have hs₂ : List.Sorted (fun a b : DirEntry => a.name ≤ b.name) (ls d₂) :=
    List.sorted_insertionSort _ d₂
  have hp : (ls d₁).Perm (ls d₂) :=
    ((List.perm_insertionSort _ d₁).trans hperm).trans
      (List.perm_insertionSort _ d₂).symm
  have hnd₁ : ((ls d₁).map DirEntry.name).Nodup := by
    have hmp : ((ls d₁).map DirEntry.name).Perm (d₁.map DirEntry.name) :=
      (List.perm_insertionSort _ d₁).map DirEntry.name
    exact (hmp.nodup_iff).mpr hnd
  have heq := sorted_perm_nodup_eq (ls d₁) (ls d₂) hp hnd₁ hs₁ hs₂
  exact ⟨hs₁, heq, by rw [heq]⟩

/-- C9 (counterexample): even over the sorted listing, two admissible runs
over the same resource and the same directory contents produce different
mutated resources — the policy's two fresh env names are appended in the
unspecified Go map-iteration order — so "two runs produce identical
mutated resources and identical patches" fails. -/
theorem run_reproducibility_counterexample :
    ¬ C9Statement c9CexResource [c9CexEntry] := by
  intro h
  have := h [([("A", 0), ("B", 1)], [])] [([("B", 1), ("A", 0)], [])]
    (by decide) (by decide)
  exact absurd this (by decide)

/-- C9 witness. -/
theorem policy_iteration_deterministic_check :
    List.Sorted (fun a b : DirEntry => a.name ≤ b.name)
      (ls [⟨"a.json", true, none⟩, ⟨"b.json", true, none⟩]) ∧
    ls [⟨"a.json", true, none⟩, ⟨"b.json", true, none⟩] =
      ls [⟨"b.json", true, none⟩, ⟨"a.json", true, none⟩] ∧
    mutateLoop ⟨none, none, none⟩
        ((ls [⟨"a.json", true, none⟩, ⟨"b.json", true, none⟩]).zip []) =
      mutateLoop ⟨none, none, none⟩
        ((ls [⟨"b.json", true, none⟩, ⟨"a.json", true, none⟩]).zip []) :=
  policy_iteration_deterministic [⟨"a.json", true, none⟩, ⟨"b.json", true, none⟩]
    [⟨"b.json", true, none⟩, ⟨"a.json", true, none⟩] ⟨none, none, none⟩ []
    (by decide) (by decide)

end TfPluginManager
